import Mathlib

/-!
Verification of the icns repository's binary parsing/codec layer.

Bytes are modelled as natural numbers (values below 256 where it matters).
The run-length codec of the internal rle package is not shipped with the
sources (only its test file is), so `rle.Decode` and `rle.Encode` are
modelled from the spec, and validated below against the concrete
test vectors of the shipped test file.

The recursive scans are written with an explicit fuel argument equal to the
input length: every iteration consumes at least one input byte, so that
fuel always suffices; fuel-irrelevance lemmas make the equations usable.
-/

/-- Count of leading bytes of the list equal to `b` (helper for the greedy
run measurement of the encoder). -/
def runLen (b : Nat) : List Nat → Nat
  | [] => 0
  | c :: cs => if c = b then runLen b cs + 1 else 0

/-- Modelled from the spec: flushing the pending literal buffer emits the
flag byte `length - 1` followed by the literal bytes; an empty buffer emits
nothing. -/
def flush (pending : List Nat) : List Nat :=
  match pending with
  | [] => []
  | _ :: _ => (pending.length - 1) :: pending

/-- Modelled from the spec: the greedy left-to-right run-length encoder
(the rle package's Encode is absent from the sources; only its test is
shipped).  At each position the run of identical bytes starting there is
measured, capped at 130; a run of length at least 3 flushes the pending
literal and emits flag `128 + (run - 3)` (written `125 + run`) plus the
repeated byte; otherwise the byte joins the pending literal buffer, which
is flushed when it reaches 128 bytes or input ends. -/
def encodeF : Nat → List Nat → List Nat → List Nat
  | _, [], pending => flush pending
  | 0, _ :: _, pending => flush pending
  | fuel + 1, b :: rest, pending =>
    if 3 ≤ min 130 (runLen b rest + 1) then
      flush pending ++ (125 + min 130 (runLen b rest + 1)) :: b ::
        encodeF fuel (rest.drop (min 130 (runLen b rest + 1) - 1)) []
    else if pending.length + 1 = 128 then
      flush (pending ++ [b]) ++ encodeF fuel rest []
    else
      encodeF fuel rest (pending ++ [b])

/-- Modelled from the spec: run-length encoding of a byte sequence. -/
def rle.Encode (data : List Nat) : List Nat := encodeF data.length data []

/-- Modelled from the spec: the run-length decoder loop (the rle package's
Decode is absent from the sources).  A flag byte of at least 128 starts a
run record: the next byte is repeated `flag - 128 + 3` times (a truncated
run with no value byte stops cleanly); a flag byte below 128 starts a
literal record copying the next `flag + 1` bytes verbatim (a truncated
literal copies what remains and stops, without padding). -/
def decodeF : Nat → List Nat → List Nat
  | _, [] => []
  | 0, _ :: _ => []
  | fuel + 1, flag :: rest =>
    if 128 ≤ flag then
      match rest with
      | [] => []
      | v :: rest2 => List.replicate (flag - 128 + 3) v ++ decodeF fuel rest2
    else
      rest.take (flag + 1) ++ decodeF fuel (rest.drop (flag + 1))

/-- Modelled from the spec: run-length decoding of a byte sequence. -/
def rle.Decode (data : List Nat) : List Nat := decodeF data.length data

/-- Number of run records (flag byte at least 128) in an encoded stream,
walking the record framing. -/
def countRunF : Nat → List Nat → Nat
  | _, [] => 0
  | 0, _ :: _ => 0
  | fuel + 1, flag :: rest =>
    if 128 ≤ flag then countRunF fuel (rest.drop 1) + 1
    else countRunF fuel (rest.drop (flag + 1))

/-- Number of run records in an encoded stream. -/
def countRunRecords (data : List Nat) : Nat := countRunF data.length data

/-- Lengths of the literal records (flag byte below 128) in an encoded
stream, walking the record framing. -/
def litLensF : Nat → List Nat → List Nat
  | _, [] => []
  | 0, _ :: _ => []
  | fuel + 1, flag :: rest =>
    if 128 ≤ flag then litLensF fuel (rest.drop 1)
    else (flag + 1) :: litLensF fuel (rest.drop (flag + 1))

/-- Lengths of the literal records in an encoded stream. -/
def litLens (data : List Nat) : List Nat := litLensF data.length data

/-- Input predicate: no three consecutive identical bytes, i.e. every
maximal run has length at most 2. -/
def noTriple : List Nat → Bool
  | a :: b :: c :: rest => (!(a == b && b == c)) && noTriple (b :: c :: rest)
  | _ => true

theorem decodeF_fuel : ∀ f1 : Nat, ∀ l : List Nat, ∀ f2 : Nat,
    l.length ≤ f1 → l.length ≤ f2 → decodeF f1 l = decodeF f2 l := by
  intro f1
  induction f1 with
  | zero =>
    intro l f2 h1 _
    have : l = [] := List.eq_nil_of_length_eq_zero (Nat.le_zero.mp h1)
    subst this
    cases f2 <;> rfl
  | succ g ih =>
    intro l f2 h1 h2
    cases l with
    | nil => cases f2 <;> rfl
    | cons flag rest =>
      cases f2 with
      | zero => simp at h2
      | succ g2 =>
        simp only [decodeF]
        by_cases hf : 128 ≤ flag
        · simp only [if_pos hf]
          cases rest with
          | nil => rfl
          | cons v rest2 =>
            have hr : rest2.length ≤ g := by simp at h1; omega
            have hr2 : rest2.length ≤ g2 := by simp at h2; omega
            dsimp only
            rw [ih rest2 g2 hr hr2]
        · simp only [if_neg hf]
          have hr : (rest.drop (flag + 1)).length ≤ g := by
            simp [List.length_drop] at *; omega
          have hr2 : (rest.drop (flag + 1)).length ≤ g2 := by
            simp [List.length_drop] at *; omega
          rw [ih (rest.drop (flag + 1)) g2 hr hr2]

theorem encodeF_fuel : ∀ f1 : Nat, ∀ l pending : List Nat, ∀ f2 : Nat,
    l.length ≤ f1 → l.length ≤ f2 → encodeF f1 l pending = encodeF f2 l pending := by
  intro f1
  induction f1 with
  | zero =>
    intro l pending f2 h1 _
    have : l = [] := List.eq_nil_of_length_eq_zero (Nat.le_zero.mp h1)
    subst this
    cases f2 <;> rfl
  | succ g ih =>
    intro l pending f2 h1 h2
    cases l with
    | nil => cases f2 <;> rfl
    | cons b rest =>
      cases f2 with
      | zero => simp at h2
      | succ g2 =>
        simp only [encodeF]
        have hrest : rest.length ≤ g := by simp at h1; omega
        have hrest2 : rest.length ≤ g2 := by simp at h2; omega
        by_cases h3 : 3 ≤ min 130 (runLen b rest + 1)
        · simp only [if_pos h3]
          have hd : (rest.drop (min 130 (runLen b rest + 1) - 1)).length ≤ g := by
            simp [List.length_drop]; omega
          have hd2 : (rest.drop (min 130 (runLen b rest + 1) - 1)).length ≤ g2 := by
            simp [List.length_drop]; omega
          rw [ih _ [] g2 hd hd2]
        · simp only [if_neg h3]
          by_cases hp : pending.length + 1 = 128
          · simp only [if_pos hp]
            rw [ih rest [] g2 hrest hrest2]
          · simp only [if_neg hp]
            rw [ih rest (pending ++ [b]) g2 hrest hrest2]

theorem countRunF_fuel : ∀ f1 : Nat, ∀ l : List Nat, ∀ f2 : Nat,
    l.length ≤ f1 → l.length ≤ f2 → countRunF f1 l = countRunF f2 l := by
  intro f1
  induction f1 with
  | zero =>
    intro l f2 h1 _
    have : l = [] := List.eq_nil_of_length_eq_zero (Nat.le_zero.mp h1)
    subst this
    cases f2 <;> rfl
  | succ g ih =>
    intro l f2 h1 h2
    cases l with
    | nil => cases f2 <;> rfl
    | cons flag rest =>
      cases f2 with
      | zero => simp at h2
      | succ g2 =>
        simp only [countRunF]
        have hrest : rest.length ≤ g := by simp at h1; omega
        have hrest2 : rest.length ≤ g2 := by simp at h2; omega
        by_cases hf : 128 ≤ flag
        · simp only [if_pos hf]
          have hd : (rest.drop 1).length ≤ g := by simp [List.length_drop]; omega
          have hd2 : (rest.drop 1).length ≤ g2 := by simp [List.length_drop]; omega
          rw [ih _ g2 hd hd2]
        · simp only [if_neg hf]
          have hd : (rest.drop (flag + 1)).length ≤ g := by simp [List.length_drop]; omega
          have hd2 : (rest.drop (flag + 1)).length ≤ g2 := by simp [List.length_drop]; omega
          rw [ih _ g2 hd hd2]

theorem litLensF_fuel : ∀ f1 : Nat, ∀ l : List Nat, ∀ f2 : Nat,
    l.length ≤ f1 → l.length ≤ f2 → litLensF f1 l = litLensF f2 l := by
  intro f1
  induction f1 with
  | zero =>
    intro l f2 h1 _
    have : l = [] := List.eq_nil_of_length_eq_zero (Nat.le_zero.mp h1)
    subst this
    cases f2 <;> rfl
  | succ g ih =>
    intro l f2 h1 h2
    cases l with
    | nil => cases f2 <;> rfl
    | cons flag rest =>
      cases f2 with
      | zero => simp at h2
      | succ g2 =>
        simp only [litLensF]
        have hrest : rest.length ≤ g := by simp at h1; omega
        have hrest2 : rest.length ≤ g2 := by simp at h2; omega
        by_cases hf : 128 ≤ flag
        · simp only [if_pos hf]
          have hd : (rest.drop 1).length ≤ g := by simp [List.length_drop]; omega
          have hd2 : (rest.drop 1).length ≤ g2 := by simp [List.length_drop]; omega
          rw [ih _ g2 hd hd2]
        · simp only [if_neg hf]
          have hd : (rest.drop (flag + 1)).length ≤ g := by simp [List.length_drop]; omega
          have hd2 : (rest.drop (flag + 1)).length ≤ g2 := by simp [List.length_drop]; omega
          rw [ih _ g2 hd hd2]

theorem Decode_nil : rle.Decode [] = [] := rfl

theorem Decode_run (flag v : Nat) (rest : List Nat) (h : 128 ≤ flag) :
    rle.Decode (flag :: v :: rest) = List.replicate (flag - 128 + 3) v ++ rle.Decode rest := by
  show decodeF (rest.length + 2) (flag :: v :: rest) = _
  simp only [decodeF, if_pos h]
  rw [decodeF_fuel (rest.length + 1) rest rest.length (by omega) (le_refl _)]
  rfl

theorem Decode_run_trunc (flag : Nat) (h : 128 ≤ flag) : rle.Decode [flag] = [] := by
  show decodeF 1 [flag] = []
  simp [decodeF, if_pos h]

theorem Decode_lit (flag : Nat) (rest : List Nat) (h : flag < 128) :
    rle.Decode (flag :: rest) =
      rest.take (flag + 1) ++ rle.Decode (rest.drop (flag + 1)) := by
  show decodeF (rest.length + 1) (flag :: rest) = _
  simp only [decodeF, if_neg (Nat.not_le.mpr h)]
  rw [decodeF_fuel rest.length (rest.drop (flag + 1)) (rest.drop (flag + 1)).length
    (by simp [List.length_drop]) (le_refl _)]
  rfl

theorem countRun_nil : countRunRecords [] = 0 := rfl

theorem countRun_run (flag : Nat) (rest : List Nat) (h : 128 ≤ flag) :
    countRunRecords (flag :: rest) = countRunRecords (rest.drop 1) + 1 := by
  show countRunF (rest.length + 1) (flag :: rest) = _
  simp only [countRunF, if_pos h]
  rw [countRunF_fuel rest.length (rest.drop 1) (rest.drop 1).length
    (by simp [List.length_drop]) (le_refl _)]
  rfl

theorem countRun_lit (flag : Nat) (rest : List Nat) (h : flag < 128) :
    countRunRecords (flag :: rest) = countRunRecords (rest.drop (flag + 1)) := by
  show countRunF (rest.length + 1) (flag :: rest) = _
  simp only [countRunF, if_neg (Nat.not_le.mpr h)]
  rw [countRunF_fuel rest.length (rest.drop (flag + 1)) (rest.drop (flag + 1)).length
    (by simp [List.length_drop]) (le_refl _)]
  rfl

theorem litLens_nil : litLens [] = [] := rfl

theorem litLens_run (flag : Nat) (rest : List Nat) (h : 128 ≤ flag) :
    litLens (flag :: rest) = litLens (rest.drop 1) := by
  show litLensF (rest.length + 1) (flag :: rest) = _
  simp only [litLensF, if_pos h]
  rw [litLensF_fuel rest.length (rest.drop 1) (rest.drop 1).length
    (by simp [List.length_drop]) (le_refl _)]
  rfl

theorem litLens_lit (flag : Nat) (rest : List Nat) (h : flag < 128) :
    litLens (flag :: rest) = (flag + 1) :: litLens (rest.drop (flag + 1)) := by
  show litLensF (rest.length + 1) (flag :: rest) = _
  simp only [litLensF, if_neg (Nat.not_le.mpr h)]
  rw [litLensF_fuel rest.length (rest.drop (flag + 1)) (rest.drop (flag + 1)).length
    (by simp [List.length_drop]) (le_refl _)]
  rfl

theorem decode_flush_append (pending xs : List Nat) (h : pending.length ≤ 128) :
    rle.Decode (flush pending ++ xs) = pending ++ rle.Decode xs := by
  cases pending with
  | nil => simp [flush]
  | cons p ps =>
    have hlen : (p :: ps).length - 1 = ps.length := by simp
    show rle.Decode (((p :: ps).length - 1) :: ((p :: ps) ++ xs)) = _
    rw [hlen, Decode_lit ps.length ((p :: ps) ++ xs) (by simp at h; omega)]
    have hl : ps.length + 1 = (p :: ps).length := by simp
    rw [hl, List.take_left, List.drop_left]

theorem countRun_flush_append (pending xs : List Nat) (h : pending.length ≤ 128) :
    countRunRecords (flush pending ++ xs) = countRunRecords xs := by
  cases pending with
  | nil => simp [flush]
  | cons p ps =>
    have hlen : (p :: ps).length - 1 = ps.length := by simp
    show countRunRecords (((p :: ps).length - 1) :: ((p :: ps) ++ xs)) = _
    rw [hlen, countRun_lit ps.length ((p :: ps) ++ xs) (by simp at h; omega)]
    have hl : ps.length + 1 = (p :: ps).length := by simp
    rw [hl, List.drop_left]

theorem litLens_flush_nil (xs : List Nat) : litLens (flush [] ++ xs) = litLens xs := by
  simp [flush]

theorem litLens_flush_cons (p : Nat) (ps xs : List Nat) (h : (p :: ps).length ≤ 128) :
    litLens (flush (p :: ps) ++ xs) = (p :: ps).length :: litLens xs := by
  have hlen : (p :: ps).length - 1 = ps.length := by simp
  show litLens (((p :: ps).length - 1) :: ((p :: ps) ++ xs)) = _
  rw [hlen, litLens_lit ps.length ((p :: ps) ++ xs) (by simp at h; omega)]
  have hl : ps.length + 1 = (p :: ps).length := by simp
  rw [hl, List.drop_left]

theorem replicate_append_drop : ∀ k : Nat, ∀ l : List Nat, ∀ b : Nat,
    k ≤ runLen b l → List.replicate k b ++ l.drop k = l := by
  intro k
  induction k with
  | zero => intro l b _; simp
  | succ j ih =>
    intro l b hk
    cases l with
    | nil => simp [runLen] at hk
    | cons c cs =>
      by_cases hc : c = b
      · subst hc
        have hk2 : j ≤ runLen c cs := by simp [runLen] at hk; omega
        have : List.replicate j c ++ cs.drop j = cs := ih cs c hk2
        simp only [List.replicate_succ, List.cons_append, List.drop_succ_cons]
        rw [this]
      · simp [runLen, hc] at hk

theorem decode_encodeF : ∀ fuel : Nat, ∀ data pending : List Nat,
    data.length ≤ fuel → pending.length ≤ 127 →
    rle.Decode (encodeF fuel data pending) = pending ++ data := by
  intro fuel
  induction fuel with
  | zero =>
    intro data pending h1 h2
    have : data = [] := List.eq_nil_of_length_eq_zero (Nat.le_zero.mp h1)
    subst this
    show rle.Decode (flush pending) = pending ++ []
    have := decode_flush_append pending [] (by omega)
    simpa [Decode_nil] using this
  | succ g ih =>
    intro data pending h1 h2
    cases data with
    | nil =>
      show rle.Decode (flush pending) = pending ++ []
      have := decode_flush_append pending [] (by omega)
      simpa [Decode_nil] using this
    | cons b rest =>
      have hrest : rest.length ≤ g := by simp at h1; omega
      simp only [encodeF]
      by_cases h3 : 3 ≤ min 130 (runLen b rest + 1)
      · simp only [if_pos h3]
        rw [decode_flush_append pending _ (by omega)]
        rw [Decode_run _ b _ (by omega)]
        rw [ih (rest.drop (min 130 (runLen b rest + 1) - 1)) []
          (by simp [List.length_drop]; omega) (by simp)]
        obtain ⟨k, hk⟩ : ∃ k, min 130 (runLen b rest + 1) = k + 1 :=
          ⟨min 130 (runLen b rest + 1) - 1, by omega⟩
        have hkr : k ≤ runLen b rest := by omega
        rw [hk]
        have harith : 125 + (k + 1) - 128 + 3 = k + 1 := by omega
        rw [harith]
        simp only [Nat.add_sub_cancel, List.nil_append, List.replicate_succ,
          List.cons_append]
        rw [replicate_append_drop k rest b hkr]
      · simp only [if_neg h3]
        by_cases hp : pending.length + 1 = 128
        · simp only [if_pos hp]
          rw [decode_flush_append (pending ++ [b]) _ (by simp; omega)]
          rw [ih rest [] hrest (by simp)]
          simp
        · simp only [if_neg hp]
          rw [ih rest (pending ++ [b]) hrest (by simp; omega)]
          simp

/-- C1: for every byte sequence `b`, decoding the result of encoding `b`
with the run-length codec yields `b` again. -/
theorem rle_decode_encode_roundtrip (b : List Nat) : rle.Decode (rle.Encode b) = b := by
  have := decode_encodeF b.length b [] (le_refl _) (by simp)
  simpa [rle.Encode] using this

/-- C2: the run-length decoder maps a flag byte of at least 128 to a run of
`flag - 128 + 3` copies (a run of 3..130) of the following value byte, a
flag byte below 128 to a verbatim copy of the following `flag + 1` bytes
(a literal of 1..128), and empty input to empty output. -/
theorem rle_decode_step_spec :
    rle.Decode [] = [] ∧
    (∀ flag v : Nat, ∀ rest : List Nat, 128 ≤ flag → flag ≤ 255 →
      rle.Decode (flag :: v :: rest) = List.replicate (flag - 128 + 3) v ++ rle.Decode rest ∧
      3 ≤ flag - 128 + 3 ∧ flag - 128 + 3 ≤ 130) ∧
    (∀ flag : Nat, ∀ rest : List Nat, flag < 128 →
      rle.Decode (flag :: rest) = rest.take (flag + 1) ++ rle.Decode (rest.drop (flag + 1)) ∧
      1 ≤ flag + 1 ∧ flag + 1 ≤ 128) := by
  refine ⟨rfl, ?_, ?_⟩
  · intro flag v rest h1 h2
    exact ⟨Decode_run flag v rest h1, by omega, by omega⟩
  · intro flag rest h
    exact ⟨Decode_lit flag rest h, by omega, by omega⟩

theorem rle_decode_step_spec_witness :
    rle.Decode [130, 7] = List.replicate 5 7 ++ rle.Decode [] ∧
    rle.Decode [2, 9, 8, 7] = [9, 8, 7].take 3 ++ rle.Decode ([9, 8, 7].drop 3) :=
  ⟨(rle_decode_step_spec.2.1 130 7 [] (by decide) (by decide)).1,
   (rle_decode_step_spec.2.2 2 [9, 8, 7] (by decide)).1⟩

/-- C3: the run-length decoder never reads past the end of the buffer: a
final run record with no value byte decodes to nothing, and a final literal
record declaring more bytes than remain yields exactly the remaining bytes,
without padding. -/
theorem rle_decode_truncation_safe :
    (∀ flag : Nat, 128 ≤ flag → rle.Decode [flag] = []) ∧
    (∀ flag : Nat, ∀ rest : List Nat, flag < 128 → rest.length ≤ flag →
      rle.Decode (flag :: rest) = rest) := by
  refine ⟨fun flag h => Decode_run_trunc flag h, ?_⟩
  intro flag rest h hlen
  rw [Decode_lit flag rest h, List.take_of_length_le (by omega),
    List.drop_eq_nil_of_le (by omega), Decode_nil, List.append_nil]

theorem rle_decode_truncation_safe_witness :
    rle.Decode [200] = [] ∧ rle.Decode [5, 1, 2, 3] = [1, 2, 3] :=
  ⟨rle_decode_truncation_safe.1 200 (by decide),
   rle_decode_truncation_safe.2 5 [1, 2, 3] (by decide) (by decide)⟩

/-- C5: the encoder maps the mixed test input to the exact expected bytes,
and 300 zero bytes to two maximal 130-runs plus one 40-run. -/
theorem rle_encode_concrete_vectors :
    rle.Encode [0x01, 0x02, 0x02, 0x03, 0x03, 0x03, 0x04, 0x04, 0x04, 0x04,
        0x05, 0x05, 0x05, 0x05, 0x05]
      = [0x02, 0x01, 0x02, 0x02, 0x80, 0x03, 0x81, 0x04, 0x82, 0x05] ∧
    rle.Encode (List.replicate 300 0) = [0xFF, 0x00, 0xFF, 0x00, 0xA5, 0x00] := by
  constructor
  · decide
  · set_option maxRecDepth 4000 in decide

theorem runLen_replicate (b : Nat) : ∀ n : Nat, runLen b (List.replicate n b) = n := by
  intro n
  induction n with
  | zero => rfl
  | succ m ih => simp [List.replicate_succ, runLen, ih]

theorem count_encode_replicate : ∀ L : Nat, ∀ b : Nat,
    countRunRecords (rle.Encode (List.replicate L b)) =
      if L < 3 then 0
      else if L % 130 = 1 ∨ L % 130 = 2 then L / 130 else (L + 129) / 130 := by
  intro L
  induction L using Nat.strong_induction_on with
  | _ L ih =>
    intro b
    by_cases h3 : L < 3
    · rw [if_pos h3]
      interval_cases L
      · rfl
      · show countRunF (encodeF 1 [b] []).length (encodeF 1 [b] []) = 0
        norm_num [encodeF, runLen, flush, countRunF]
      · show countRunF (encodeF 2 [b, b] []).length (encodeF 2 [b, b] []) = 0
        norm_num [encodeF, runLen, flush, countRunF]
    · rw [if_neg h3]
      push_neg at h3
      obtain ⟨M, rfl⟩ : ∃ M, L = M + 1 := ⟨L - 1, by omega⟩
      have hstep : rle.Encode (List.replicate (M + 1) b)
          = (125 + min 130 (M + 1)) :: b ::
            rle.Encode (List.replicate (M + 1 - min 130 (M + 1)) b) := by
        show encodeF (List.replicate (M + 1) b).length (List.replicate (M + 1) b) [] = _
        rw [List.length_replicate, List.replicate_succ]
        simp only [encodeF, runLen_replicate]
        rw [if_pos (by omega)]
        rw [List.drop_replicate]
        rw [encodeF_fuel M (List.replicate (M - (min 130 (M + 1) - 1)) b) []
          (List.replicate (M - (min 130 (M + 1) - 1)) b).length (by simp) (le_refl _)]
        have hidx : M - (min 130 (M + 1) - 1) = M + 1 - min 130 (M + 1) := by omega
        rw [hidx]
        rfl
      rw [hstep, countRun_run _ _ (by omega)]
      simp only [List.drop_succ_cons, List.drop_zero]
      rw [ih (M + 1 - min 130 (M + 1)) (by omega) b]
      split_ifs <;> omega

theorem noTriple_runLen (b : Nat) (rest : List Nat)
    (h : noTriple (b :: rest) = true) : runLen b rest ≤ 1 := by
  cases rest with
  | nil => simp [runLen]
  | cons x xs =>
    cases xs with
    | nil =>
      by_cases hx : x = b <;> simp [runLen, hx]
    | cons y ys =>
      simp only [noTriple, Bool.and_eq_true, Bool.not_eq_true'] at h
      by_cases hx : x = b
      · subst hx
        have hy : ¬ y = x := by
          intro hyx
          subst hyx
          simp at h
        simp [runLen, hy]
      · simp [runLen, hx]

theorem noTriple_tail (a : Nat) (l : List Nat)
    (h : noTriple (a :: l) = true) : noTriple l = true := by
  cases l with
  | nil => rfl
  | cons b bs =>
    cases bs with
    | nil => rfl
    | cons c cs =>
      simp only [noTriple, Bool.and_eq_true] at h
      exact h.2

theorem count_encodeF_noTriple : ∀ fuel : Nat, ∀ l pending : List Nat,
    l.length ≤ fuel → noTriple l = true → pending.length ≤ 127 →
    countRunRecords (encodeF fuel l pending) = 0 := by
  intro fuel
  induction fuel with
  | zero =>
    intro l pending h1 _ h2
    have : l = [] := List.eq_nil_of_length_eq_zero (Nat.le_zero.mp h1)
    subst this
    show countRunRecords (flush pending) = 0
    have := countRun_flush_append pending [] (by omega)
    simpa using this
  | succ g ih =>
    intro l pending h1 hno h2
    cases l with
    | nil =>
      show countRunRecords (flush pending) = 0
      have := countRun_flush_append pending [] (by omega)
      simpa using this
    | cons b rest =>
      have hrest : rest.length ≤ g := by simp at h1; omega
      have hrl : runLen b rest ≤ 1 := noTriple_runLen b rest hno
      have htail : noTriple rest = true := noTriple_tail b rest hno
      simp only [encodeF]
      rw [if_neg (by omega)]
      by_cases hp : pending.length + 1 = 128
      · rw [if_pos hp]
        rw [countRun_flush_append (pending ++ [b]) _ (by simp; omega)]
        exact ih rest [] hrest htail (by simp)
      · rw [if_neg hp]
        exact ih rest (pending ++ [b]) hrest htail (by simp; omega)

theorem litLens_flush_le (pending : List Nat) (h : pending.length ≤ 128) :
    ∀ n ∈ litLens (flush pending), n ≤ 128 := by
  cases pending with
  | nil => intro n hn; simp [flush, litLens_nil] at hn
  | cons p ps =>
    intro n hn
    have heq := litLens_flush_cons p ps [] h
    rw [List.append_nil] at heq
    rw [heq] at hn
    simp only [litLens_nil] at hn
    simp at hn h
    omega

theorem litLens_flush_append_le (pending xs : List Nat) (h : pending.length ≤ 128)
    (hxs : ∀ n ∈ litLens xs, n ≤ 128) : ∀ n ∈ litLens (flush pending ++ xs), n ≤ 128 := by
  cases pending with
  | nil => rw [litLens_flush_nil]; exact hxs
  | cons p ps =>
    intro n hn
    rw [litLens_flush_cons p ps xs h] at hn
    rcases List.mem_cons.mp hn with h1 | h1
    · subst h1; exact h
    · exact hxs n h1

theorem litLens_encodeF_le : ∀ fuel : Nat, ∀ l pending : List Nat,
    l.length ≤ fuel → pending.length ≤ 127 →
    ∀ n ∈ litLens (encodeF fuel l pending), n ≤ 128 := by
  intro fuel
  induction fuel with
  | zero =>
    intro l pending h1 h2
    have : l = [] := List.eq_nil_of_length_eq_zero (Nat.le_zero.mp h1)
    subst this
    show ∀ n ∈ litLens (flush pending), n ≤ 128
    exact litLens_flush_le pending (by omega)
  | succ g ih =>
    intro l pending h1 h2
    cases l with
    | nil =>
      show ∀ n ∈ litLens (flush pending), n ≤ 128
      exact litLens_flush_le pending (by omega)
    | cons b rest =>
      have hrest : rest.length ≤ g := by simp at h1; omega
      simp only [encodeF]
      by_cases h3 : 3 ≤ min 130 (runLen b rest + 1)
      · rw [if_pos h3]
        apply litLens_flush_append_le pending _ (by omega)
        intro n hn
        rw [litLens_run _ _ (by omega)] at hn
        simp only [List.drop_succ_cons, List.drop_zero] at hn
        exact ih (rest.drop (min 130 (runLen b rest + 1) - 1)) []
          (by simp [List.length_drop]; omega) (by simp) n hn
      · rw [if_neg h3]
        by_cases hp : pending.length + 1 = 128
        · rw [if_pos hp]
          apply litLens_flush_append_le (pending ++ [b]) _ (by simp; omega)
          intro n hn
          exact ih rest [] hrest (by simp) n hn
        · rw [if_neg hp]
          exact ih rest (pending ++ [b]) hrest (by simp; omega)

/-- C4 (amended): empty input encodes to empty output; an input that is a
single maximal run of `L ≥ 3` identical bytes yields `ceil(L/130)` run
records except when `L % 130` is 1 or 2 (and `L > 130`), where the greedy
encoder yields `floor(L/130)` run records and the leftover 1-2 bytes become
a literal; an input with no three consecutive identical bytes (every run of
length 1 or 2 is absorbed into literals) yields no run records; and every
literal record holds at most 128 bytes. -/
theorem rle_encode_record_structure :
    (∀ b L : Nat, 3 ≤ L →
      countRunRecords (rle.Encode (List.replicate L b)) =
        if L % 130 = 1 ∨ L % 130 = 2 then L / 130 else (L + 129) / 130) ∧
    (∀ l : List Nat, noTriple l = true → countRunRecords (rle.Encode l) = 0) ∧
    (∀ l : List Nat, ∀ n ∈ litLens (rle.Encode l), n ≤ 128) ∧
    rle.Encode [] = [] := by
  refine ⟨?_, ?_, ?_, rfl⟩
  · intro b L hL
    rw [count_encode_replicate L b, if_neg (by omega)]
  · intro l h
    exact count_encodeF_noTriple l.length l [] (le_refl _) h (by simp)
  · intro l n hn
    exact litLens_encodeF_le l.length l [] (le_refl _) (by simp) n hn

theorem rle_encode_record_structure_witness :
    countRunRecords (rle.Encode (List.replicate 300 0)) =
      (if 300 % 130 = 1 ∨ 300 % 130 = 2 then 300 / 130 else (300 + 129) / 130) ∧
    countRunRecords (rle.Encode [1, 2, 3, 1, 2, 3]) = 0 ∧
    3 ≤ 128 :=
  ⟨rle_encode_record_structure.1 0 300 (by norm_num),
   rle_encode_record_structure.2.1 [1, 2, 3, 1, 2, 3] (by decide),
   rle_encode_record_structure.2.2.1 [1, 2, 3] 3 (by decide)⟩

/-- C4 counterexample: a maximal run of 131 identical bytes is encoded as a
single run record of 130 bytes followed by a literal record holding the one
leftover byte, so it uses 1 run record, not `ceil(131/130) = 2` as claimed. -/
theorem rle_encode_ceil_counterexample :
    countRunRecords (rle.Encode (List.replicate 131 0)) = 1 ∧ (131 + 129) / 130 = 2 := by
  constructor
  · set_option maxRecDepth 4000 in decide
  · rfl

/-!
Container parser model, from reader.go and icns.go.  The binary reader,
the codec implementations and the named constants (compatibility eras,
resolutions, four-character codes) live in internal packages absent from
the sources; they are modelled from the spec below.  Codec decoding and
mask compositing are external collaborators, modelled as an abstract
`Codecs` environment over an arbitrary image type.
-/

/-- Modelled from the spec: the compatibility eras form a total order of
platform generations; the four legacy pairs carry the oldest era, the two
ARGB codes a distinct early era, and the modern codes later eras.  `Oldest`
and `Newest` are the extreme eras, the defaults of a fresh icon. -/
def Allegro : Nat := 0

/-- Modelled from the spec: the era of the two ARGB codes. -/
def Cheetah : Nat := 1

/-- Modelled from the spec: an era of some modern codes. -/
def Leopard : Nat := 2

/-- Modelled from the spec: an era of some modern codes. -/
def Lion : Nat := 3

/-- Modelled from the spec: the era of the latest modern codes. -/
def MountainLion : Nat := 4

/-- Modelled from the spec: the minimal compatibility era. -/
def Oldest : Nat := Allegro

/-- Modelled from the spec: the maximal compatibility era. -/
def Newest : Nat := MountainLion

/-- Modelled from the spec: the fixed four-byte magic constant of the
container, the ASCII four-character code of the format. -/
def magic : Nat := 0x69636E73

/-- Four-character code of a legacy color format (ASCII value). -/
def is32 : Nat := 0x69733332

/-- Four-character code of a legacy color format (ASCII value). -/
def il32 : Nat := 0x696C3332

/-- Four-character code of a legacy color format (ASCII value). -/
def ih32 : Nat := 0x69683332

/-- Four-character code of a legacy color format (ASCII value). -/
def it32 : Nat := 0x69743332

/-- Four-character code of a legacy mask format (ASCII value). -/
def s8mk : Nat := 0x73386D6B

/-- Four-character code of a legacy mask format (ASCII value). -/
def l8mk : Nat := 0x6C386D6B

/-- Four-character code of a legacy mask format (ASCII value). -/
def h8mk : Nat := 0x68386D6B

/-- Four-character code of a legacy mask format (ASCII value). -/
def t8mk : Nat := 0x74386D6B

/-- Four-character code of an ARGB format (ASCII value). -/
def ic04 : Nat := 0x69633034

/-- Four-character code of an ARGB format (ASCII value). -/
def ic05 : Nat := 0x69633035

/-- Four-character code of a modern format (ASCII value). -/
def icp4 : Nat := 0x69637034

/-- Four-character code of a modern format (ASCII value). -/
def icp5 : Nat := 0x69637035

/-- Four-character code of a modern format (ASCII value). -/
def icp6 : Nat := 0x69637036

/-- Four-character code of a modern format (ASCII value). -/
def ic07 : Nat := 0x69633037

/-- Four-character code of a modern format (ASCII value). -/
def ic08 : Nat := 0x69633038

/-- Four-character code of a modern format (ASCII value). -/
def ic09 : Nat := 0x69633039

/-- Four-character code of a modern format (ASCII value). -/
def ic10 : Nat := 0x69633130

/-- Four-character code of a modern format (ASCII value). -/
def ic11 : Nat := 0x69633131

/-- Four-character code of a modern format (ASCII value). -/
def ic12 : Nat := 0x69633132

/-- Four-character code of a modern format (ASCII value). -/
def ic13 : Nat := 0x69633133

/-- Four-character code of a modern format (ASCII value). -/
def ic14 : Nat := 0x69633134

/-- Square resolution in pixels, per the Resolution constants. -/
def Pixel16 : Nat := 16

/-- Square resolution in pixels, per the Resolution constants. -/
def Pixel32 : Nat := 32

/-- Square resolution in pixels, per the Resolution constants. -/
def Pixel64 : Nat := 64

/-- Square resolution in pixels, per the Resolution constants. -/
def Pixel128 : Nat := 128

/-- Square resolution in pixels, per the Resolution constants. -/
def Pixel256 : Nat := 256

/-- Square resolution in pixels, per the Resolution constants. -/
def Pixel512 : Nat := 512

/-- Square resolution in pixels, per the Resolution constants. -/
def Pixel1024 : Nat := 1024

/-- Codec kind of a format, the four codec variants of the registry. -/
inductive CodecKind : Type where
  | pack : CodecKind
  | mask : CodecKind
  | argb : CodecKind
  | image : CodecKind
  deriving DecidableEq

/-- Format descriptor, from the Format struct of reader.go. -/
structure Format where
  code : Nat
  combineCode : Nat
  res : Nat
  compat : Nat
  codec : CodecKind
  deriving DecidableEq

/-- Rows of the mask-format registry, from the init function of reader.go:
the four legacy mask codes, each paired with its color code, tagged
Allegro. -/
def maskFormatRows : List Format :=
  [⟨s8mk, is32, Pixel16, Allegro, CodecKind.mask⟩,
   ⟨l8mk, il32, Pixel32, Allegro, CodecKind.mask⟩,
   ⟨h8mk, ih32, Pixel16, Allegro, CodecKind.mask⟩,
   ⟨t8mk, it32, Pixel32, Allegro, CodecKind.mask⟩]

/-- Rows of the image-format registry, from the init function of reader.go:
four legacy pack formats, two ARGB formats and eleven modern formats. -/
def imageFormatRows : List Format :=
  [⟨is32, s8mk, Pixel16, Allegro, CodecKind.pack⟩,
   ⟨il32, l8mk, Pixel32, Allegro, CodecKind.pack⟩,
   ⟨ih32, h8mk, Pixel16, Allegro, CodecKind.pack⟩,
   ⟨it32, t8mk, Pixel32, Allegro, CodecKind.pack⟩,
   ⟨ic04, 0, Pixel16, Cheetah, CodecKind.argb⟩,
   ⟨ic05, 0, Pixel32, Cheetah, CodecKind.argb⟩,
   ⟨icp4, 0, Pixel16, Lion, CodecKind.image⟩,
   ⟨icp5, 0, Pixel32, Lion, CodecKind.image⟩,
   ⟨icp6, 0, Pixel64, Lion, CodecKind.image⟩,
   ⟨ic07, 0, Pixel128, Lion, CodecKind.image⟩,
   ⟨ic08, 0, Pixel256, Leopard, CodecKind.image⟩,
   ⟨ic09, 0, Pixel512, Leopard, CodecKind.image⟩,
   ⟨ic10, 0, Pixel1024, Lion, CodecKind.image⟩,
   ⟨ic11, 0, Pixel32, MountainLion, CodecKind.image⟩,
   ⟨ic12, 0, Pixel64, MountainLion, CodecKind.image⟩,
   ⟨ic13, 0, Pixel256, MountainLion, CodecKind.image⟩,
   ⟨ic14, 0, Pixel512, MountainLion, CodecKind.image⟩]

/-- Mask-format registry: exact-match lookup of a type code among the mask
rows (codes are pairwise distinct, matching map semantics). -/
def supportedMaskFormats (code : Nat) : Option Format :=
  maskFormatRows.find? (fun f => f.code == code)

/-- Image-format registry: exact-match lookup of a type code among the
image rows (codes are pairwise distinct, matching map semantics). -/
def supportedImageFormats (code : Nat) : Option Format :=
  imageFormatRows.find? (fun f => f.code == code)

/-- Modelled from the spec: the external codec collaborators over an
abstract image type; `dec` decodes a payload at a resolution for a codec
kind (None is a decode failure), `comp` is the mask compositing of
draw.DrawMask producing the alpha-blended image. -/
structure Codecs (α : Type) where
  dec : CodecKind → List Nat → Nat → Option α
  comp : α → α → Nat → α

/-- Decoded asset, from the Img struct of icns.go (the encoder label of the
external decoder is not modelled; no claim mentions it). -/
structure Img (α : Type) where
  format : Format
  image : Option α
  data : List Nat
  deriving DecidableEq

/-- Icon collection, from the ICNS struct of icns.go. -/
structure ICNS (α : Type) where
  minCompat : Nat
  maxCompat : Nat
  assets : List (Img α)
  unsupportedCodes : List Nat
  deriving DecidableEq

/-- Byte of a list at an index, zero when absent. -/
def byteAt (l : List Nat) (i : Nat) : Nat := l.getD i 0

/-- Modelled from the spec: big-endian 32-bit read of the binary reader
(absent bytes of a short tail read as zero, matching left-shift
accumulation). -/
def be32 (l : List Nat) : Nat :=
  byteAt l 0 * 16777216 + byteAt l 1 * 65536 + byteAt l 2 * 256 + byteAt l 3

/-- Big-endian four-byte encoding of a 32-bit value. -/
def u32be (n : Nat) : List Nat :=
  [n / 16777216 % 256, n / 65536 % 256, n / 256 % 256, n % 256]

/-- Lookup in the mask cache (newest insertion first, matching map
overwrite semantics). -/
def lookupMask {α : Type} : List (Nat × α) → Nat → Option α
  | [], _ => none
  | (c, m) :: rest, code => if c = code then some m else lookupMask rest code

/-- Declared total length of the chunk at the head of the unread bytes. -/
def chunkSize (bytes : List Nat) : Nat := be32 (bytes.drop 4)

/-- Payload of the chunk at the head of the unread bytes: the declared
length minus the eight header bytes. -/
def chunkPayload (bytes : List Nat) : List Nat :=
  (bytes.drop 8).take (chunkSize bytes - 8)

/-- Unread bytes after the chunk at the head. -/
def chunkRest (bytes : List Nat) : List Nat :=
  (bytes.drop 8).drop (chunkSize bytes - 8)

/-- One iteration of the chunk loop of readICNS: reads the code and length,
stops (None) on a malformed trailing chunk, otherwise consumes the payload
and processes it as a mask chunk, an image chunk, or an unsupported code,
returning the remaining bytes and the updated mask cache and collection.
The malformed-length stop is modelled from the spec (the binary reader's
Section is absent from the sources). -/
def readChunk {α : Type} (env : Codecs α) (metaOnly : Bool) (bytes : List Nat)
    (masks : List (Nat × α)) (acc : ICNS α) :
    Option (List Nat × List (Nat × α) × ICNS α) :=
  if chunkSize bytes < 8 ∨ (bytes.drop 8).length < chunkSize bytes - 8 then none
  else
    match supportedMaskFormats (be32 bytes) with
    | some f =>
      if metaOnly then some (chunkRest bytes, masks, acc)
      else
        match env.dec f.codec (chunkPayload bytes) f.res with
        | none => some (chunkRest bytes, masks, acc)
        | some m =>
          some (chunkRest bytes, (be32 bytes, m) :: masks,
            { acc with minCompat := min acc.minCompat f.compat,
                       maxCompat := max acc.maxCompat f.compat })
    | none =>
      match supportedImageFormats (be32 bytes) with
      | some f =>
        if metaOnly then
          some (chunkRest bytes, masks,
            { acc with
              assets := acc.assets ++ [{ format := f, image := none, data := [] }],
              minCompat := min acc.minCompat f.compat,
              maxCompat := max acc.maxCompat f.compat })
        else
          match env.dec f.codec (chunkPayload bytes) f.res with
          | none => some (chunkRest bytes, masks, acc)
          | some i =>
            some (chunkRest bytes, masks,
              { acc with
                assets := acc.assets ++
                  [{ format := f,
                     image := some (match lookupMask masks f.combineCode with
                       | some m => env.comp i m f.res
                       | none => i),
                     data := chunkPayload bytes }],
                minCompat := min acc.minCompat f.compat,
                maxCompat := max acc.maxCompat f.compat })
      | none =>
        some (chunkRest bytes, masks,
          { acc with unsupportedCodes := acc.unsupportedCodes ++ [be32 bytes] })

/-- Chunk loop of readICNS with explicit fuel (each iteration consumes the
eight header bytes, so the byte count bounds the iterations). -/
def readLoopF {α : Type} (env : Codecs α) (metaOnly : Bool) :
    Nat → List Nat → List (Nat × α) → ICNS α → ICNS α
  | _, [], _, acc => acc
  | 0, _ :: _, _, acc => acc
  | fuel + 1, bytes@(_ :: _), masks, acc =>
    match readChunk env metaOnly bytes masks acc with
    | none => acc
    | some (rest, masks2, acc2) => readLoopF env metaOnly fuel rest masks2 acc2

/-- Chunk loop of readICNS at its natural fuel. -/
def readLoop {α : Type} (env : Codecs α) (metaOnly : Bool) (bytes : List Nat)
    (masks : List (Nat × α)) (acc : ICNS α) : ICNS α :=
  readLoopF env metaOnly bytes.length bytes masks acc

/-- Initial collection of readICNS: minimum compatibility starts at Newest
and maximum at Oldest. -/
def initialICNS (α : Type) : ICNS α :=
  { minCompat := Newest, maxCompat := Oldest, assets := [], unsupportedCodes := [] }

/-- Container parse, from readICNS of reader.go: checks the magic value
(the only fatal error), discards the declared size, and runs the chunk
loop. -/
def readICNS {α : Type} (env : Codecs α) (bytes : List Nat) (metaOnly : Bool) :
    Except Nat (ICNS α) :=
  if be32 bytes = magic then
    Except.ok (readLoop env metaOnly (bytes.drop 8) [] (initialICNS α))
  else
    Except.error (be32 bytes)

/-- Mirror of the full-parse chunk loop collecting the compatibility era of
every chunk whose payload decodes successfully (masks and images), walking
the same framing. -/
def dcF {α : Type} (env : Codecs α) : Nat → List Nat → List Nat
  | _, [] => []
  | 0, _ :: _ => []
  | fuel + 1, bytes@(_ :: _) =>
    if chunkSize bytes < 8 ∨ (bytes.drop 8).length < chunkSize bytes - 8 then []
    else
      match supportedMaskFormats (be32 bytes) with
      | some f =>
        match env.dec f.codec (chunkPayload bytes) f.res with
        | none => dcF env fuel (chunkRest bytes)
        | some _ => f.compat :: dcF env fuel (chunkRest bytes)
      | none =>
        match supportedImageFormats (be32 bytes) with
        | some f =>
          match env.dec f.codec (chunkPayload bytes) f.res with
          | none => dcF env fuel (chunkRest bytes)
          | some _ => f.compat :: dcF env fuel (chunkRest bytes)
        | none => dcF env fuel (chunkRest bytes)

/-- Eras of the successfully decoded chunks of a full parse of a chunk
stream. -/
def decodedCompats {α : Type} (env : Codecs α) (bytes : List Nat) : List Nat :=
  dcF env bytes.length bytes

/-- Fresh icon constructor, from NewICNS of icns.go: defaults are minimum
compatibility Oldest and maximum Newest, then the options are applied. -/
def NewICNS {α : Type} (opts : List (ICNS α → ICNS α)) : ICNS α :=
  opts.foldl (fun i o => o i)
    { minCompat := Oldest, maxCompat := Newest, assets := [], unsupportedCodes := [] }

/-- Byte encoding of a well-formed chunk: code, total length (payload plus
the eight header bytes), payload. -/
def chunkBytes (code : Nat) (payload : List Nat) : List Nat :=
  u32be code ++ u32be (payload.length + 8) ++ payload

/-- Codec environment that decodes every payload to the image 0; used to
instantiate parse theorems on concrete streams. -/
def trivialCodecs : Codecs Nat :=
  ⟨fun _ _ _ => some 0, fun a _ _ => a⟩

instance exceptDecidableEq {ε α : Type} [DecidableEq ε] [DecidableEq α] :
    DecidableEq (Except ε α) := fun a b =>
  match a, b with
  | Except.error e1, Except.error e2 =>
    if h : e1 = e2 then isTrue (by rw [h]) else isFalse (by intro hh; cases hh; exact h rfl)
  | Except.ok x, Except.ok y =>
    if h : x = y then isTrue (by rw [h]) else isFalse (by intro hh; cases hh; exact h rfl)
  | Except.error _, Except.ok _ => isFalse (by intro hh; cases hh)
  | Except.ok _, Except.error _ => isFalse (by intro hh; cases hh)

example : readICNS trivialCodecs (u32be magic ++ u32be 0 ++ chunkBytes 1 []) false
    = Except.ok { minCompat := 4, maxCompat := 0, assets := [], unsupportedCodes := [1] } := by
  decide

theorem be32_u32be (n : Nat) (l : List Nat) (h : n < 4294967296) :
    be32 (u32be n ++ l) = n := by
  simp only [u32be, be32, byteAt, List.cons_append, List.getD_cons_zero,
    List.getD_cons_succ, List.nil_append]
  omega

theorem drop4_u32be (n : Nat) (l : List Nat) : (u32be n ++ l).drop 4 = l := rfl

theorem drop8_two_u32be (a b : Nat) (l : List Nat) :
    ((u32be a ++ u32be b) ++ l).drop 8 = l := rfl

theorem drop8_two_u32be_r (a b : Nat) (l : List Nat) :
    (u32be a ++ (u32be b ++ l)).drop 8 = l := rfl

theorem chunk_code (code : Nat) (payload rest : List Nat) (h : code < 4294967296) :
    be32 (chunkBytes code payload ++ rest) = code := by
  simp only [chunkBytes, List.append_assoc]
  exact be32_u32be code _ h

theorem chunk_size (code : Nat) (payload rest : List Nat)
    (h : payload.length + 8 < 4294967296) :
    chunkSize (chunkBytes code payload ++ rest) = payload.length + 8 := by
  simp only [chunkSize, chunkBytes, List.append_assoc, drop4_u32be]
  exact be32_u32be _ _ h

theorem chunk_drop8 (code : Nat) (payload rest : List Nat) :
    (chunkBytes code payload ++ rest).drop 8 = payload ++ rest := by
  simp only [chunkBytes, List.append_assoc]
  exact drop8_two_u32be code (payload.length + 8) (payload ++ rest)

theorem chunk_payload (code : Nat) (payload rest : List Nat)
    (h : payload.length + 8 < 4294967296) :
    chunkPayload (chunkBytes code payload ++ rest) = payload := by
  simp only [chunkPayload, chunk_size code payload rest h, chunk_drop8,
    Nat.add_sub_cancel, List.take_left]

theorem chunk_rest (code : Nat) (payload rest : List Nat)
    (h : payload.length + 8 < 4294967296) :
    chunkRest (chunkBytes code payload ++ rest) = rest := by
  simp only [chunkRest, chunk_size code payload rest h, chunk_drop8,
    Nat.add_sub_cancel, List.drop_left]

theorem chunk_not_malformed (code : Nat) (payload rest : List Nat)
    (h : payload.length + 8 < 4294967296) :
    ¬(chunkSize (chunkBytes code payload ++ rest) < 8 ∨
      ((chunkBytes code payload ++ rest).drop 8).length
        < chunkSize (chunkBytes code payload ++ rest) - 8) := by
  rw [chunk_size code payload rest h, chunk_drop8, List.length_append]
  omega

theorem chunkRest_length (bytes : List Nat) :
    (chunkRest bytes).length ≤ bytes.length - 8 := by
  simp only [chunkRest, List.length_drop]
  omega

theorem readChunk_rest_le {α : Type} (env : Codecs α) (meta : Bool) (bytes : List Nat)
    (masks : List (Nat × α)) (acc : ICNS α) (rest : List Nat)
    (masks2 : List (Nat × α)) (acc2 : ICNS α)
    (h : readChunk env meta bytes masks acc = some (rest, masks2, acc2)) :
    rest.length ≤ bytes.length - 8 := by
  simp only [readChunk] at h
  repeat' split at h
  all_goals first
  | (cases h; exact chunkRest_length bytes)
  | simp at h

theorem readLoopF_fuel {α : Type} (env : Codecs α) (meta : Bool) :
    ∀ f1 : Nat, ∀ bytes : List Nat, ∀ masks : List (Nat × α), ∀ acc : ICNS α, ∀ f2 : Nat,
    bytes.length ≤ f1 → bytes.length ≤ f2 →
    readLoopF env meta f1 bytes masks acc = readLoopF env meta f2 bytes masks acc := by
  intro f1
  induction f1 with
  | zero =>
    intro bytes masks acc f2 h1 _
    have : bytes = [] := List.eq_nil_of_length_eq_zero (Nat.le_zero.mp h1)
    subst this
    cases f2 <;> rfl
  | succ g ih =>
    intro bytes masks acc f2 h1 h2
    cases bytes with
    | nil => cases f2 <;> rfl
    | cons b bs =>
      cases f2 with
      | zero => simp at h2
      | succ g2 =>
        simp only [readLoopF]
        rcases h : readChunk env meta (b :: bs) masks acc with _ | ⟨rest, masks2, acc2⟩
        · rfl
        · have hle := readChunk_rest_le env meta (b :: bs) masks acc rest masks2 acc2 h
          simp only [List.length_cons] at hle h1 h2
          exact ih rest masks2 acc2 g2 (by omega) (by omega)

theorem readLoop_nil {α : Type} (env : Codecs α) (meta : Bool)
    (masks : List (Nat × α)) (acc : ICNS α) : readLoop env meta [] masks acc = acc := rfl

theorem readLoop_step {α : Type} (env : Codecs α) (meta : Bool) (bytes : List Nat)
    (masks : List (Nat × α)) (acc : ICNS α) (hne : bytes ≠ []) :
    readLoop env meta bytes masks acc =
      match readChunk env meta bytes masks acc with
      | none => acc
      | some (rest, masks2, acc2) => readLoop env meta rest masks2 acc2 := by
  cases bytes with
  | nil => exact absurd rfl hne
  | cons b bs =>
    show readLoopF env meta (bs.length + 1) (b :: bs) masks acc = _
    simp only [readLoopF]
    rcases h : readChunk env meta (b :: bs) masks acc with _ | ⟨rest, masks2, acc2⟩
    · rfl
    · have hle := readChunk_rest_le env meta (b :: bs) masks acc rest masks2 acc2 h
      simp only [List.length_cons] at hle
      exact readLoopF_fuel env meta bs.length rest masks2 acc2 rest.length
        (by omega) (le_refl _)

theorem chunk_ne_nil (code : Nat) (payload rest : List Nat) :
    chunkBytes code payload ++ rest ≠ [] := by
  simp [chunkBytes, u32be]

theorem maskFmt_s8mk :
    supportedMaskFormats s8mk = some ⟨s8mk, is32, Pixel16, Allegro, CodecKind.mask⟩ := by
  decide

theorem maskFmt_is32_none : supportedMaskFormats is32 = none := by decide

theorem imgFmt_is32 :
    supportedImageFormats is32 = some ⟨is32, s8mk, Pixel16, Allegro, CodecKind.pack⟩ := by
  decide

theorem readChunk_unknown {α : Type} (env : Codecs α) (meta : Bool) (code : Nat)
    (payload rest : List Nat) (masks : List (Nat × α)) (acc : ICNS α)
    (hcode : code < 4294967296) (hlen : payload.length + 8 < 4294967296)
    (hm : supportedMaskFormats code = none) (hi : supportedImageFormats code = none) :
    readChunk env meta (chunkBytes code payload ++ rest) masks acc =
      some (rest, masks,
        { acc with unsupportedCodes := acc.unsupportedCodes ++ [code] }) := by
  simp only [readChunk, chunk_code code payload rest hcode]
  rw [if_neg (chunk_not_malformed code payload rest hlen)]
  simp only [hm, hi, chunk_rest code payload rest hlen]

theorem readChunk_mask_decoded {α : Type} (env : Codecs α) (code : Nat) (f : Format)
    (payload rest : List Nat) (masks : List (Nat × α)) (acc : ICNS α) (m : α)
    (hcode : code < 4294967296) (hlen : payload.length + 8 < 4294967296)
    (hf : supportedMaskFormats code = some f)
    (hd : env.dec f.codec payload f.res = some m) :
    readChunk env false (chunkBytes code payload ++ rest) masks acc =
      some (rest, (code, m) :: masks,
        { acc with minCompat := min acc.minCompat f.compat,
                   maxCompat := max acc.maxCompat f.compat }) := by
  simp only [readChunk, chunk_code code payload rest hcode]
  rw [if_neg (chunk_not_malformed code payload rest hlen)]
  simp only [hf, chunk_payload code payload rest hlen, chunk_rest code payload rest hlen]
  rw [if_neg (by decide : ¬((false : Bool) = true))]
  simp only [hd]

theorem readChunk_image_decoded {α : Type} (env : Codecs α) (code : Nat) (f : Format)
    (payload rest : List Nat) (masks : List (Nat × α)) (acc : ICNS α) (i : α)
    (hcode : code < 4294967296) (hlen : payload.length + 8 < 4294967296)
    (hmf : supportedMaskFormats code = none)
    (hf : supportedImageFormats code = some f)
    (hd : env.dec f.codec payload f.res = some i) :
    readChunk env false (chunkBytes code payload ++ rest) masks acc =
      some (rest, masks,
        { acc with
          assets := acc.assets ++
            [{ format := f,
               image := some (match lookupMask masks f.combineCode with
                 | some m => env.comp i m f.res
                 | none => i),
               data := payload }],
          minCompat := min acc.minCompat f.compat,
          maxCompat := max acc.maxCompat f.compat }) := by
  simp only [readChunk, chunk_code code payload rest hcode]
  rw [if_neg (chunk_not_malformed code payload rest hlen)]
  simp only [hmf, hf, chunk_payload code payload rest hlen, chunk_rest code payload rest hlen]
  rw [if_neg (by decide : ¬((false : Bool) = true))]
  simp only [hd]

/-- C6: the parse errors exactly when the leading four-byte big-endian
value differs from the magic constant; with matching magic the parse
returns a collection, and a well-formed chunk whose code is in neither the
mask table nor the image table is appended to the unsupported-code list and
iteration continues, for any mode and any state. -/
theorem readICNS_error_iff_magic {α : Type} (env : Codecs α) :
    (∀ bytes : List Nat, ∀ meta : Bool,
      (∃ e, readICNS env bytes meta = Except.error e) ↔ be32 bytes ≠ magic) ∧
    (∀ bytes : List Nat, ∀ meta : Bool, be32 bytes = magic →
      readICNS env bytes meta =
        Except.ok (readLoop env meta (bytes.drop 8) [] (initialICNS α))) ∧
    (∀ meta : Bool, ∀ code : Nat, ∀ payload rest : List Nat,
      ∀ masks : List (Nat × α), ∀ acc : ICNS α,
      supportedMaskFormats code = none → supportedImageFormats code = none →
      code < 4294967296 → payload.length + 8 < 4294967296 →
      readLoop env meta (chunkBytes code payload ++ rest) masks acc =
        readLoop env meta rest masks
          { acc with unsupportedCodes := acc.unsupportedCodes ++ [code] }) := by
  refine ⟨?_, ?_, ?_⟩
  · intro bytes meta
    constructor
    · rintro ⟨e, he⟩ hb
      simp only [readICNS, if_pos hb] at he
      exact Except.noConfusion he
    · intro hb
      refine ⟨be32 bytes, ?_⟩
      simp only [readICNS, if_neg hb]
  · intro bytes meta hb
    simp only [readICNS, if_pos hb]
  · intro meta code payload rest masks acc hm hi hcode hlen
    rw [readLoop_step env meta _ masks acc (chunk_ne_nil code payload rest)]
    rw [readChunk_unknown env meta code payload rest masks acc hcode hlen hm hi]

theorem readICNS_error_iff_magic_witness :
    readLoop trivialCodecs false (chunkBytes 1 [] ++ []) [] (initialICNS Nat) =
      readLoop trivialCodecs false [] []
        { initialICNS Nat with
          unsupportedCodes := (initialICNS Nat).unsupportedCodes ++ [1] } :=
  (readICNS_error_iff_magic trivialCodecs).2.2 false 1 [] [] [] (initialICNS Nat)
    (by decide) (by decide) (by decide) (by decide)

/-- C7: chunk-order dependence of mask compositing for a legacy pair.  When
the mask chunk precedes its paired color chunk, the produced asset's image
is the composite of the decoded color image with the cached mask; when the
mask chunk follows the color chunk, the asset's image is the bare decoded
color image, untouched by that mask. -/
theorem readICNS_mask_order_compositing {α : Type} (env : Codecs α)
    (pm pc : List Nat) (m i : α) (ts : Nat)
    (hm : env.dec CodecKind.mask pm Pixel16 = some m)
    (hc : env.dec CodecKind.pack pc Pixel16 = some i)
    (hpm : pm.length + 8 < 4294967296) (hpc : pc.length + 8 < 4294967296) :
    readICNS env (u32be magic ++ u32be ts ++ (chunkBytes s8mk pm ++ chunkBytes is32 pc))
        false
      = Except.ok
          { minCompat := Allegro, maxCompat := Allegro,
            assets := [{ format := ⟨is32, s8mk, Pixel16, Allegro, CodecKind.pack⟩,
                         image := some (env.comp i m Pixel16), data := pc }],
            unsupportedCodes := [] } ∧
    readICNS env (u32be magic ++ u32be ts ++ (chunkBytes is32 pc ++ chunkBytes s8mk pm))
        false
      = Except.ok
          { minCompat := Allegro, maxCompat := Allegro,
            assets := [{ format := ⟨is32, s8mk, Pixel16, Allegro, CodecKind.pack⟩,
                         image := some i, data := pc }],
            unsupportedCodes := [] } := by
  constructor
  · have hmg : be32 (u32be magic ++ u32be ts ++
        (chunkBytes s8mk pm ++ chunkBytes is32 pc)) = magic :=
      be32_u32be magic _ (by decide)
    simp only [readICNS]
    rw [if_pos hmg]
    rw [show (u32be magic ++ u32be ts ++
        (chunkBytes s8mk pm ++ chunkBytes is32 pc)).drop 8
      = chunkBytes s8mk pm ++ chunkBytes is32 pc from rfl]
    rw [readLoop_step env false _ [] (initialICNS α) (chunk_ne_nil s8mk pm _)]
    rw [readChunk_mask_decoded env s8mk ⟨s8mk, is32, Pixel16, Allegro, CodecKind.mask⟩ pm
      (chunkBytes is32 pc) [] (initialICNS α) m (by decide) hpm maskFmt_s8mk hm]
    dsimp only
    rw [← List.append_nil (chunkBytes is32 pc)]
    rw [readLoop_step env false _ _ _ (chunk_ne_nil is32 pc [])]
    rw [readChunk_image_decoded env is32 ⟨is32, s8mk, Pixel16, Allegro, CodecKind.pack⟩ pc
      [] [(s8mk, m)] _ i (by decide) hpc maskFmt_is32_none imgFmt_is32 hc]
    dsimp only
    rw [readLoop_nil]
    simp [initialICNS, lookupMask, Newest, Oldest, Allegro, MountainLion,
      Nat.min_def, Nat.max_def]
  · have hmg : be32 (u32be magic ++ u32be ts ++
        (chunkBytes is32 pc ++ chunkBytes s8mk pm)) = magic :=
      be32_u32be magic _ (by decide)
    simp only [readICNS]
    rw [if_pos hmg]
    rw [show (u32be magic ++ u32be ts ++
        (chunkBytes is32 pc ++ chunkBytes s8mk pm)).drop 8
      = chunkBytes is32 pc ++ chunkBytes s8mk pm from rfl]
    rw [readLoop_step env false _ [] (initialICNS α) (chunk_ne_nil is32 pc _)]
    rw [readChunk_image_decoded env is32 ⟨is32, s8mk, Pixel16, Allegro, CodecKind.pack⟩ pc
      (chunkBytes s8mk pm) [] (initialICNS α) i (by decide) hpc maskFmt_is32_none
      imgFmt_is32 hc]
    dsimp only
    rw [← List.append_nil (chunkBytes s8mk pm)]
    rw [readLoop_step env false _ _ _ (chunk_ne_nil s8mk pm [])]
    rw [readChunk_mask_decoded env s8mk ⟨s8mk, is32, Pixel16, Allegro, CodecKind.mask⟩ pm
      [] [] _ m (by decide) hpm maskFmt_s8mk hm]
    dsimp only
    rw [readLoop_nil]
    simp [initialICNS, lookupMask, Newest, Oldest, Allegro, MountainLion,
      Nat.min_def, Nat.max_def]

/-- Codec environment whose mask decodes yield image 1 and other decodes
image 2, with an injective pairing as compositing; distinguishes composited
from bare images on concrete streams. -/
def markCodecs : Codecs Nat :=
  ⟨fun k _ _ =>
    some (match k with
      | CodecKind.mask => 1
      | _ => 2),
   fun a b r => a * 1000000 + b * 1000 + r⟩

theorem readICNS_mask_order_compositing_witness :
    readICNS markCodecs
        (u32be magic ++ u32be 0 ++ (chunkBytes s8mk [] ++ chunkBytes is32 [])) false
      = Except.ok
          { minCompat := Allegro, maxCompat := Allegro,
            assets := [{ format := ⟨is32, s8mk, Pixel16, Allegro, CodecKind.pack⟩,
                         image := some (markCodecs.comp 2 1 Pixel16), data := [] }],
            unsupportedCodes := [] } ∧
    readICNS markCodecs
        (u32be magic ++ u32be 0 ++ (chunkBytes is32 [] ++ chunkBytes s8mk [])) false
      = Except.ok
          { minCompat := Allegro, maxCompat := Allegro,
            assets := [{ format := ⟨is32, s8mk, Pixel16, Allegro, CodecKind.pack⟩,
                         image := some 2, data := [] }],
            unsupportedCodes := [] } :=
  readICNS_mask_order_compositing markCodecs [] [] 1 2 0 rfl rfl (by decide) (by decide)

/-- C8: a chunk whose declared length is below 8 (negative payload) or
whose payload exceeds the remaining bytes stops the chunk iteration,
returning the partially-built collection, and the whole parse of such a
stream still succeeds with no error. -/
theorem readICNS_malformed_chunk_partial {α : Type} (env : Codecs α) (meta : Bool)
    (code size ts : Nat) (rest : List Nat) (masks : List (Nat × α)) (acc : ICNS α)
    (hsz : size < 4294967296)
    (hmal : size < 8 ∨ rest.length < size - 8) :
    readLoop env meta (u32be code ++ u32be size ++ rest) masks acc = acc ∧
    readICNS env (u32be magic ++ u32be ts ++ (u32be code ++ u32be size ++ rest)) meta
      = Except.ok (initialICNS α) := by
  have hchunk : ∀ masks2 : List (Nat × α), ∀ acc2 : ICNS α,
      readChunk env meta (u32be code ++ u32be size ++ rest) masks2 acc2 = none := by
    intro masks2 acc2
    simp only [readChunk, chunkSize, List.append_assoc]
    rw [drop4_u32be code (u32be size ++ rest), be32_u32be size rest hsz,
      drop8_two_u32be_r code size rest]
    rw [if_pos hmal]
  constructor
  · rw [readLoop_step env meta _ masks acc (by simp [u32be])]
    rw [hchunk masks acc]
  · have hmg : be32 (u32be magic ++ u32be ts ++ (u32be code ++ u32be size ++ rest))
        = magic := be32_u32be magic _ (by decide)
    simp only [readICNS]
    rw [if_pos hmg]
    rw [show (u32be magic ++ u32be ts ++ (u32be code ++ u32be size ++ rest)).drop 8
      = u32be code ++ u32be size ++ rest from rfl]
    rw [readLoop_step env meta _ [] (initialICNS α) (by simp [u32be])]
    rw [hchunk [] (initialICNS α)]

theorem readICNS_malformed_chunk_partial_witness :
    readLoop trivialCodecs false (u32be 1 ++ u32be 3 ++ []) [] (initialICNS Nat)
      = initialICNS Nat ∧
    readICNS trivialCodecs (u32be magic ++ u32be 0 ++ (u32be 1 ++ u32be 3 ++ [])) false
      = Except.ok (initialICNS Nat) :=
  readICNS_malformed_chunk_partial trivialCodecs false 1 3 0 [] [] (initialICNS Nat)
    (by decide) (Or.inl (by decide))

theorem foldr_min_init (l : List Nat) : ∀ a c : Nat,
    l.foldr min (min a c) = min c (l.foldr min a) := by
  induction l with
  | nil => intro a c; simp [Nat.min_comm]
  | cons x xs ih =>
    intro a c
    simp only [List.foldr_cons]
    rw [ih a c]
    omega

theorem foldr_max_init (l : List Nat) : ∀ a c : Nat,
    l.foldr max (max a c) = max c (l.foldr max a) := by
  induction l with
  | nil => intro a c; simp [Nat.max_comm]
  | cons x xs ih =>
    intro a c
    simp only [List.foldr_cons]
    rw [ih a c]
    omega

theorem readLoopF_compat {α : Type} (env : Codecs α) : ∀ fuel : Nat, ∀ bytes : List Nat,
    ∀ masks : List (Nat × α), ∀ acc : ICNS α,
    (readLoopF env false fuel bytes masks acc).minCompat
      = (dcF env fuel bytes).foldr min acc.minCompat ∧
    (readLoopF env false fuel bytes masks acc).maxCompat
      = (dcF env fuel bytes).foldr max acc.maxCompat := by
  intro fuel
  induction fuel with
  | zero =>
    intro bytes masks acc
    cases bytes <;> exact ⟨rfl, rfl⟩
  | succ g ih =>
    intro bytes masks acc
    cases bytes with
    | nil => exact ⟨rfl, rfl⟩
    | cons b bs =>
      simp only [readLoopF, dcF, readChunk]
      by_cases hmal : chunkSize (b :: bs) < 8 ∨
          ((b :: bs).drop 8).length < chunkSize (b :: bs) - 8
      · rw [if_pos hmal, if_pos hmal]
        exact ⟨rfl, rfl⟩
      · rw [if_neg hmal, if_neg hmal]
        rcases h1 : supportedMaskFormats (be32 (b :: bs)) with _ | f
        · dsimp only
          rcases h2 : supportedImageFormats (be32 (b :: bs)) with _ | f
          · dsimp only
            exact ih (chunkRest (b :: bs)) masks
              { acc with unsupportedCodes := acc.unsupportedCodes ++ [be32 (b :: bs)] }
          · dsimp only
            rw [if_neg (by decide : ¬((false : Bool) = true))]
            rcases h3 : env.dec f.codec (chunkPayload (b :: bs)) f.res with _ | i
            · dsimp only
              exact ih (chunkRest (b :: bs)) masks acc
            · dsimp only
              have hrec := ih (chunkRest (b :: bs)) masks
                { acc with
                  assets := acc.assets ++
                    [{ format := f,
                       image := some (match lookupMask masks f.combineCode with
                         | some m => env.comp i m f.res
                         | none => i),
                       data := chunkPayload (b :: bs) }],
                  minCompat := min acc.minCompat f.compat,
                  maxCompat := max acc.maxCompat f.compat }
              simp only [List.foldr_cons]
              constructor
              · rw [hrec.1]
                exact foldr_min_init (dcF env g (chunkRest (b :: bs))) acc.minCompat f.compat
              · rw [hrec.2]
                exact foldr_max_init (dcF env g (chunkRest (b :: bs))) acc.maxCompat f.compat
        · dsimp only
          rw [if_neg (by decide : ¬((false : Bool) = true))]
          rcases h3 : env.dec f.codec (chunkPayload (b :: bs)) f.res with _ | m
          · dsimp only
            exact ih (chunkRest (b :: bs)) masks acc
          · dsimp only
            have hrec := ih (chunkRest (b :: bs)) ((be32 (b :: bs), m) :: masks)
              { acc with minCompat := min acc.minCompat f.compat,
                         maxCompat := max acc.maxCompat f.compat }
            simp only [List.foldr_cons]
            constructor
            · rw [hrec.1]
              exact foldr_min_init (dcF env g (chunkRest (b :: bs))) acc.minCompat f.compat
            · rw [hrec.2]
              exact foldr_max_init (dcF env g (chunkRest (b :: bs))) acc.maxCompat f.compat

theorem foldr_min_spec : ∀ l : List Nat, ∀ B : Nat, (∀ c ∈ l, c ≤ B) → l ≠ [] →
    l.foldr min B ∈ l ∧ ∀ c ∈ l, l.foldr min B ≤ c := by
  intro l
  induction l with
  | nil => intro B _ hne; exact absurd rfl hne
  | cons x xs ih =>
    intro B hb _
    cases xs with
    | nil =>
      have hx : x ≤ B := hb x (by simp)
      have hfold : ([x] : List Nat).foldr min B = min x B := rfl
      rw [hfold, Nat.min_eq_left hx]
      exact ⟨by simp, by intro c hc; simp at hc; omega⟩
    | cons y ys =>
      have hb2 : ∀ c ∈ y :: ys, c ≤ B := fun c hc => hb c (List.mem_cons_of_mem x hc)
      have ihr := ih B hb2 (by simp)
      have hfold : (x :: y :: ys).foldr min B = min x ((y :: ys).foldr min B) := rfl
      rw [hfold]
      constructor
      · rcases Nat.le_total x ((y :: ys).foldr min B) with h | h
        · rw [Nat.min_eq_left h]
          exact List.mem_cons_self x _
        · rw [Nat.min_eq_right h]
          exact List.mem_cons_of_mem x ihr.1
      · intro c hc
        rcases List.mem_cons.mp hc with rfl | hc2
        · exact Nat.min_le_left _ _
        · have h1 := ihr.2 c hc2
          have h2 := Nat.min_le_right x ((y :: ys).foldr min B)
          omega

theorem foldr_max_spec : ∀ l : List Nat, ∀ B : Nat, (∀ c ∈ l, B ≤ c) → l ≠ [] →
    l.foldr max B ∈ l ∧ ∀ c ∈ l, c ≤ l.foldr max B := by
  intro l
  induction l with
  | nil => intro B _ hne; exact absurd rfl hne
  | cons x xs ih =>
    intro B hb _
    cases xs with
    | nil =>
      have hx : B ≤ x := hb x (by simp)
      have hfold : ([x] : List Nat).foldr max B = max x B := rfl
      rw [hfold, Nat.max_eq_left hx]
      exact ⟨by simp, by intro c hc; simp at hc; omega⟩
    | cons y ys =>
      have hb2 : ∀ c ∈ y :: ys, B ≤ c := fun c hc => hb c (List.mem_cons_of_mem x hc)
      have ihr := ih B hb2 (by simp)
      have hfold : (x :: y :: ys).foldr max B = max x ((y :: ys).foldr max B) := rfl
      rw [hfold]
      constructor
      · rcases Nat.le_total x ((y :: ys).foldr max B) with h | h
        · rw [Nat.max_eq_right h]
          exact List.mem_cons_of_mem x ihr.1
        · rw [Nat.max_eq_left h]
          exact List.mem_cons_self x _
      · intro c hc
        rcases List.mem_cons.mp hc with rfl | hc2
        · exact Nat.le_max_left _ _
        · have h1 := ihr.2 c hc2
          have h2 := Nat.le_max_right x ((y :: ys).foldr max B)
          omega

theorem maskFormats_compat_le (code : Nat) (f : Format)
    (h : supportedMaskFormats code = some f) : f.compat ≤ Newest := by
  have hmem := List.mem_of_find?_eq_some h
  have hall : ∀ g ∈ maskFormatRows, g.compat ≤ Newest := by decide
  exact hall f hmem

theorem imageFormats_compat_le (code : Nat) (f : Format)
    (h : supportedImageFormats code = some f) : f.compat ≤ Newest := by
  have hmem := List.mem_of_find?_eq_some h
  have hall : ∀ g ∈ imageFormatRows, g.compat ≤ Newest := by decide
  exact hall f hmem

theorem dcF_compat_le {α : Type} (env : Codecs α) : ∀ fuel : Nat, ∀ bytes : List Nat,
    ∀ c ∈ dcF env fuel bytes, c ≤ Newest := by
  intro fuel
  induction fuel with
  | zero =>
    intro bytes c hc
    cases bytes <;> simp [dcF] at hc
  | succ g ih =>
    intro bytes c hc
    cases bytes with
    | nil => simp [dcF] at hc
    | cons b bs =>
      simp only [dcF] at hc
      by_cases hmal : chunkSize (b :: bs) < 8 ∨
          ((b :: bs).drop 8).length < chunkSize (b :: bs) - 8
      · rw [if_pos hmal] at hc
        simp at hc
      · rw [if_neg hmal] at hc
        rcases h1 : supportedMaskFormats (be32 (b :: bs)) with _ | f
        · simp only [h1] at hc
          rcases h2 : supportedImageFormats (be32 (b :: bs)) with _ | f
          · simp only [h2] at hc
            exact ih (chunkRest (b :: bs)) c hc
          · simp only [h2] at hc
            rcases h3 : env.dec f.codec (chunkPayload (b :: bs)) f.res with _ | i
            · simp only [h3] at hc
              exact ih (chunkRest (b :: bs)) c hc
            · simp only [h3] at hc
              rcases List.mem_cons.mp hc with rfl | hc2
              · exact imageFormats_compat_le (be32 (b :: bs)) f h2
              · exact ih (chunkRest (b :: bs)) c hc2
        · simp only [h1] at hc
          rcases h3 : env.dec f.codec (chunkPayload (b :: bs)) f.res with _ | m
          · simp only [h3] at hc
            exact ih (chunkRest (b :: bs)) c hc
          · simp only [h3] at hc
            rcases List.mem_cons.mp hc with rfl | hc2
            · exact maskFormats_compat_le (be32 (b :: bs)) f h1
            · exact ih (chunkRest (b :: bs)) c hc2

/-- C9: after a full parse, the collection's minimum compatibility is the
fold of minimum over the eras of the successfully decoded chunks starting
from Newest, and the maximum is the fold of maximum starting from Oldest;
when at least one chunk decoded, these are exactly the least and greatest
decoded eras (failed and unsupported chunks contribute nothing). -/
theorem readICNS_compat_range {α : Type} (env : Codecs α) (bytes : List Nat)
    (col : ICNS α) (h : readICNS env bytes false = Except.ok col) :
    col.minCompat = (decodedCompats env (bytes.drop 8)).foldr min Newest ∧
    col.maxCompat = (decodedCompats env (bytes.drop 8)).foldr max Oldest ∧
    (decodedCompats env (bytes.drop 8) ≠ [] →
      (col.minCompat ∈ decodedCompats env (bytes.drop 8) ∧
        ∀ c ∈ decodedCompats env (bytes.drop 8), col.minCompat ≤ c) ∧
      (col.maxCompat ∈ decodedCompats env (bytes.drop 8) ∧
        ∀ c ∈ decodedCompats env (bytes.drop 8), c ≤ col.maxCompat)) := by
  have hcol : col = readLoop env false (bytes.drop 8) [] (initialICNS α) := by
    by_cases hb : be32 bytes = magic
    · simp only [readICNS, if_pos hb] at h
      injection h with h2
      exact h2.symm
    · simp only [readICNS, if_neg hb] at h
      exact Except.noConfusion h
  subst hcol
  have hinv := readLoopF_compat env (bytes.drop 8).length (bytes.drop 8) [] (initialICNS α)
  have e1 : (readLoop env false (bytes.drop 8) [] (initialICNS α)).minCompat
      = (decodedCompats env (bytes.drop 8)).foldr min Newest := hinv.1
  have e2 : (readLoop env false (bytes.drop 8) [] (initialICNS α)).maxCompat
      = (decodedCompats env (bytes.drop 8)).foldr max Oldest := hinv.2
  refine ⟨e1, e2, ?_⟩
  intro hne
  have hle : ∀ c ∈ decodedCompats env (bytes.drop 8), c ≤ Newest :=
    dcF_compat_le env (bytes.drop 8).length (bytes.drop 8)
  have hge : ∀ c ∈ decodedCompats env (bytes.drop 8), Oldest ≤ c :=
    fun c _ => Nat.zero_le c
  have hmin := foldr_min_spec (decodedCompats env (bytes.drop 8)) Newest hle hne
  have hmax := foldr_max_spec (decodedCompats env (bytes.drop 8)) Oldest hge hne
  rw [e1, e2]
  exact ⟨hmin, hmax⟩

/-- Stream with a single modern image chunk; decodes successfully under
trivialCodecs. -/
def sampleStream : List Nat := u32be magic ++ u32be 0 ++ chunkBytes ic07 []

/-- Collection produced by parsing sampleStream with trivialCodecs. -/
def sampleCol : ICNS Nat :=
  { minCompat := 3, maxCompat := 3,
    assets := [{ format := ⟨ic07, 0, Pixel128, Lion, CodecKind.image⟩,
                 image := some 0, data := [] }],
    unsupportedCodes := [] }

theorem readICNS_compat_range_witness :
    sampleCol.minCompat
      = (decodedCompats trivialCodecs (sampleStream.drop 8)).foldr min Newest ∧
    sampleCol.maxCompat
      = (decodedCompats trivialCodecs (sampleStream.drop 8)).foldr max Oldest :=
  ⟨(readICNS_compat_range trivialCodecs sampleStream sampleCol (by decide)).1,
   (readICNS_compat_range trivialCodecs sampleStream sampleCol (by decide)).2.1⟩

/-- C10: a full parse that decodes no chunk successfully leaves the
collection's compatibility range inverted, minimum Newest and maximum
Oldest, the opposite of a freshly constructed icon whose defaults are
minimum Oldest and maximum Newest. -/
theorem readICNS_no_decode_inverted {α : Type} (env : Codecs α) (bytes : List Nat)
    (col : ICNS α) (h : readICNS env bytes false = Except.ok col)
    (hnone : decodedCompats env (bytes.drop 8) = []) :
    col.minCompat = Newest ∧ col.maxCompat = Oldest ∧
    (@NewICNS α []).minCompat = Oldest ∧ (@NewICNS α []).maxCompat = Newest ∧
    Oldest < Newest := by
  have hcol : col = readLoop env false (bytes.drop 8) [] (initialICNS α) := by
    by_cases hb : be32 bytes = magic
    · simp only [readICNS, if_pos hb] at h
      injection h with h2
      exact h2.symm
    · simp only [readICNS, if_neg hb] at h
      exact Except.noConfusion h
  subst hcol
  have hinv := readLoopF_compat env (bytes.drop 8).length (bytes.drop 8) [] (initialICNS α)
  have e1 : (readLoop env false (bytes.drop 8) [] (initialICNS α)).minCompat
      = (decodedCompats env (bytes.drop 8)).foldr min Newest := hinv.1
  have e2 : (readLoop env false (bytes.drop 8) [] (initialICNS α)).maxCompat
      = (decodedCompats env (bytes.drop 8)).foldr max Oldest := hinv.2
  rw [hnone] at e1 e2
  exact ⟨e1, e2, rfl, rfl, by decide⟩

/-- Stream with a single unsupported chunk; nothing decodes. -/
def sampleStream2 : List Nat := u32be magic ++ u32be 0 ++ chunkBytes 1 []

/-- Collection produced by parsing sampleStream2 with trivialCodecs. -/
def sampleCol2 : ICNS Nat :=
  { minCompat := 4, maxCompat := 0, assets := [], unsupportedCodes := [1] }

theorem readICNS_no_decode_inverted_witness :
    sampleCol2.minCompat = Newest ∧ sampleCol2.maxCompat = Oldest :=
  ⟨(readICNS_no_decode_inverted trivialCodecs sampleStream2 sampleCol2
      (by decide) (by decide)).1,
   (readICNS_no_decode_inverted trivialCodecs sampleStream2 sampleCol2
      (by decide) (by decide)).2.1⟩
